import Mathlib

/-!
Verification of the duplicate-declaration scanner of the midnightgrind
repository (src/auto_fix_duplicates.py and src/fix_duplicates.py).

The scripts walk a directory of C++ header files, match UENUM and USTRUCT
declarations with regular expressions, group the matches by type name, and
either report duplicate groups or rewrite the redundant declarations in
place.  This file embeds the two scripts shallowly: file contents are
strings, the directory tree is an association list from paths to optional
contents (a missing value models an unreadable file), and each regular
expression is hand-compiled into a deterministic matcher that mirrors the
backtracking behaviour of the Python `re` engine on that concrete pattern.
-/

set_option autoImplicit false

abbrev Chars := List Char

/-- Python `\s` for the ASCII range: space, tab, newline, carriage return,
vertical tab and form feed. -/
def isWs (c : Char) : Bool :=
  c = ' ' || c = '\t' || c = '\n' || c = '\r' || c = '\x0b' || c = '\x0c'

/-- Python `\w` for the ASCII range: letters, digits and underscore. -/
def isWordChar (c : Char) : Bool :=
  c.isAlphanum || c = '_'

/-- Match a literal token at the head of the input and return the rest. -/
def lit (pat s : Chars) : Option Chars :=
  if pat.isPrefixOf s then some (s.drop pat.length) else none

/-- Split the input at the first occurrence of the character `c`.
`breakAtChar c s = some (pre, post)` means `s = pre ++ c :: post` with
`c` not occurring in `pre`.  This is the unique way the regex fragment
`[^c]*c` can match, so no backtracking is needed. -/
def breakAtChar (c : Char) : Chars → Option (Chars × Chars)
  | [] => none
  | d :: ds =>
    if d = c then some ([], ds)
    else
      match breakAtChar c ds with
      | some (pre, post) => some (d :: pre, post)
      | none => none

/-- Split the input at the first occurrence of the literal `pat`:
`breakAtLit pat s = some (pre, post)` means `s = pre ++ pat ++ post` with
no earlier occurrence of `pat`.  This is how a lazy `[\s\S]*?pat` matches. -/
def breakAtLit (pat : Chars) : Chars → Option (Chars × Chars)
  | [] => if pat.isEmpty then some ([], []) else none
  | c :: cs =>
    if pat.isPrefixOf (c :: cs) then some ([], (c :: cs).drop pat.length)
    else
      match breakAtLit pat cs with
      | some (pre, post) => some (c :: pre, post)
      | none => none

/-- Python `\s+`: at least one whitespace character, consumed greedily. -/
def ws1 : Chars → Option Chars
  | [] => none
  | c :: cs => if isWs c then some ((c :: cs).dropWhile isWs) else none

/-- Bool test for substring occurrence, as Python `pat in s`. -/
def containsSub (pat : Chars) : Chars → Bool
  | [] => pat.isPrefixOf ([] : Chars)
  | c :: cs => pat.isPrefixOf (c :: cs) || containsSub pat cs

/-- `isMatchAt pat s i` holds when `pat` occurs in `s` at index `i`. -/
def isMatchAt (pat s : Chars) (i : Nat) : Bool :=
  pat.isPrefixOf (s.drop i)

/-- Replace the first occurrence of `pat` in `s` by `new`, as Python
`s.replace(pat, new, 1)`; `s` is returned unchanged when `pat` does not
occur. -/
def replaceFirst (s pat new : Chars) : Chars :=
  match s with
  | [] => if pat.isEmpty then new else []
  | c :: cs =>
    if pat.isPrefixOf (c :: cs) then new ++ (c :: cs).drop pat.length
    else c :: replaceFirst cs pat new

/-! ### The four regular expressions, hand-compiled

`auto_fix_duplicates.py` defines

  enum_pattern   = ((?:/\*\*[\s\S]*?\*/\s*)?UENUM\([^)]*\)\s*enum\s+class\s+
                    (\w+)\s*:\s*uint8\s*\{[^}]+\};)
  struct_pattern = ((?:/\*\*[\s\S]*?\*/\s*)?USTRUCT\([^)]*\)\s*struct\s+
                    (FMG\w+)\s*\{[\s\S]*?GENERATED_BODY\(\))

and `fix_duplicates.py` defines

  enum_pattern   = UENUM\([^)]*\)\s*enum\s+class\s+(\w+)\s*:\s*uint8
  struct_pattern = USTRUCT\([^)]*\)\s*struct\s+(\w+)

Every quantifier in these patterns is determined: `[^x]*x` must stop at the
first `x`, greedy `\s*`/`\s+`/`\w+` are followed by a character outside the
class, and the lazy `[\s\S]*?lit` stops at the first occurrence of `lit`
(for the optional doc-comment prefix the successive occurrences of the
closing `*/` are tried in order, see `docSearch`).  Each matcher returns
the captured type name and the remaining suffix; the matched text is the
consumed prefix. -/

/-- Core of the enum pattern of auto_fix_duplicates.py, without the
optional doc-comment prefix:
`UENUM\([^)]*\)\s*enum\s+class\s+(\w+)\s*:\s*uint8\s*\{[^}]+\};` -/
def matchCoreEnum (s : Chars) : Option (Chars × Chars) := do
  let r1 ← lit ("UENUM(").data s
  let (_, r2) ← breakAtChar ')' r1
  let r3 ← lit ("enum").data (r2.dropWhile isWs)
  let r4 ← ws1 r3
  let r5 ← lit ("class").data r4
  let r6 ← ws1 r5
  let name := r6.takeWhile isWordChar
  guard (name ≠ [])
  let r7 := (r6.dropWhile isWordChar).dropWhile isWs
  let r8 ← lit [':'] r7
  let r9 ← lit ("uint8").data (r8.dropWhile isWs)
  let r10 ← lit ['\x7b'] (r9.dropWhile isWs)
  let (body, r11) ← breakAtChar '\x7d' r10
  guard (body ≠ [])
  let r12 ← lit [';'] r11
  some (name, r12)

/-- Core of the struct pattern of auto_fix_duplicates.py, without the
optional doc-comment prefix:
`USTRUCT\([^)]*\)\s*struct\s+(FMG\w+)\s*\{[\s\S]*?GENERATED_BODY\(\)` -/
def matchCoreStructA (s : Chars) : Option (Chars × Chars) := do
  let r1 ← lit ("USTRUCT(").data s
  let (_, r2) ← breakAtChar ')' r1
  let r3 ← lit ("struct").data (r2.dropWhile isWs)
  let r4 ← ws1 r3
  let r5 ← lit ("FMG").data r4
  let w := r5.takeWhile isWordChar
  guard (w ≠ [])
  let r6 := (r5.dropWhile isWordChar).dropWhile isWs
  let r7 ← lit ['\x7b'] r6
  let (_, r8) ← breakAtLit ("GENERATED_BODY()").data r7
  some (("FMG").data ++ w, r8)

/-- Enum pattern of fix_duplicates.py:
`UENUM\([^)]*\)\s*enum\s+class\s+(\w+)\s*:\s*uint8` -/
def matchEnum2At (s : Chars) : Option (Chars × Chars) := do
  let r1 ← lit ("UENUM(").data s
  let (_, r2) ← breakAtChar ')' r1
  let r3 ← lit ("enum").data (r2.dropWhile isWs)
  let r4 ← ws1 r3
  let r5 ← lit ("class").data r4
  let r6 ← ws1 r5
  let name := r6.takeWhile isWordChar
  guard (name ≠ [])
  let r7 := (r6.dropWhile isWordChar).dropWhile isWs
  let r8 ← lit [':'] r7
  let r9 ← lit ("uint8").data (r8.dropWhile isWs)
  some (name, r9)

/-- Struct pattern of fix_duplicates.py:
`USTRUCT\([^)]*\)\s*struct\s+(\w+)` -/
def matchStruct2At (s : Chars) : Option (Chars × Chars) := do
  let r1 ← lit ("USTRUCT(").data s
  let (_, r2) ← breakAtChar ')' r1
  let r3 ← lit ("struct").data (r2.dropWhile isWs)
  let r4 ← ws1 r3
  let name := r4.takeWhile isWordChar
  guard (name ≠ [])
  some (name, r4.dropWhile isWordChar)

/-- Backtracking search for the optional doc-comment prefix
`/\*\*[\s\S]*?\*/\s*` followed by the core pattern.  The input is the text
after the opening `/**`; the lazy `[\s\S]*?` tries the successive
occurrences of `*/` in order, and for each one the core matcher runs after
the greedy `\s*`.  The recursion is driven by a fuel counter so that the
kernel can evaluate it; `breakAtLit_post_lt` shows every recursive call
strictly shrinks the input, so a fuel of `s.length + 1` is never
exhausted and the fuel never changes the result. -/
def docSearch (core : Chars → Option (Chars × Chars)) :
    Nat → Chars → Option (Chars × Chars)
  | 0, _ => none
  | fuel + 1, s =>
    match breakAtLit ['*', '/'] s with
    | none => none
    | some (_, post) =>
      match core (post.dropWhile isWs) with
      | some r => some r
      | none => docSearch core fuel post

/-- Full enum pattern of auto_fix_duplicates.py at one position: the
optional group `(?:/\*\*[\s\S]*?\*/\s*)?` is tried first when the input
starts with `/**`, falling back to the bare core pattern (which cannot
succeed on a `/` anyway, mirroring the regex alternation). -/
def matchEnumAt (s : Chars) : Option (Chars × Chars) :=
  if ("/**").data.isPrefixOf s then
    match docSearch matchCoreEnum (s.length + 1) (s.drop 3) with
    | some r => some r
    | none => matchCoreEnum s
  else matchCoreEnum s

/-- Full struct pattern of auto_fix_duplicates.py at one position, with the
optional doc-comment prefix as in `matchEnumAt`. -/
def matchStructAAt (s : Chars) : Option (Chars × Chars) :=
  if ("/**").data.isPrefixOf s then
    match docSearch matchCoreStructA (s.length + 1) (s.drop 3) with
    | some r => some r
    | none => matchCoreStructA s
  else matchCoreStructA s

/-- One recorded regex match: the matched text, the captured type name and
the span, as produced by `re.finditer`. -/
structure MRec where
  text : Chars
  name : Chars
  start : Nat
  stop : Nat
deriving DecidableEq, Repr

/-- `re.finditer`: scan the positions left to right, at each position try
the matcher, and on success continue right after the match.  All our
matchers consume at least one character, so the progress guard is always
taken on success; the recursion is driven by a fuel counter so that the
kernel can evaluate it.  Every step strictly shrinks the scanned suffix,
so a fuel of `s.length + 1` is never exhausted and the fuel never changes
the result (see `finditer`). -/
def reScan (m : Chars → Option (Chars × Chars)) : Nat → Chars → Nat → List MRec
  | 0, _, _ => []
  | _ + 1, [], _ => []
  | fuel + 1, c :: cs, pos =>
    match m (c :: cs) with
    | some (nm, rest) =>
      if rest.length < cs.length + 1 then
        let len := cs.length + 1 - rest.length
        { text := (c :: cs).take len, name := nm,
          start := pos, stop := pos + len } :: reScan m fuel rest (pos + len)
      else
        reScan m fuel cs (pos + 1)
    | none => reScan m fuel cs (pos + 1)

/-- `re.finditer` over a whole string, with enough fuel for the scan. -/
def finditer (m : Chars → Option (Chars × Chars)) (s : Chars) : List MRec :=
  reScan m (s.length + 1) s 0

/-! ### Filesystem model

The directory tree is an association list from full file paths to optional
contents; `none` models a file whose `open(...).read()` raises (the scripts
catch the exception per file and continue).  Every file operation is also
recorded in an operation trace, so that frame properties (scan performs no
writes) can be stated about the trace. -/

abbrev FsTree := List (String × Option String)

def readFile : FsTree → String → Option String
  | [], _ => none
  | (q, v) :: rest, p => if q = p then v else readFile rest p

def writeFile : FsTree → String → String → FsTree
  | [], p, c => [(p, some c)]
  | (q, v) :: rest, p, c =>
    if q = p then (q, some c) :: rest else (q, v) :: writeFile rest p c

/-- A file operation as it appears in the scripts: an `open(..., 'r')`
followed by `read()`, or an `open(..., 'w')` followed by `write(...)`. -/
inductive FsOp where
  | read (path : String)
  | write (path : String) (content : String)
deriving DecidableEq, Repr

def FsOp.isRead : FsOp → Bool
  | .read _ => true
  | .write _ _ => false

/-- Filesystem state: the tree plus the trace of operations performed. -/
structure FS where
  tree : FsTree
  ops : List FsOp
deriving DecidableEq, Repr

def fsRead (s : FS) (p : String) : Option String × FS :=
  (readFile s.tree p, { tree := s.tree, ops := s.ops ++ [FsOp.read p] })

def fsWrite (s : FS) (p c : String) : FS :=
  { tree := writeFile s.tree p c, ops := s.ops ++ [FsOp.write p c] }

/-- Replay a trace of operations against a tree: reads change nothing,
writes store the written content. -/
def runOps (t : FsTree) : List FsOp → FsTree
  | [] => t
  | .read _ :: rest => runOps t rest
  | .write p c :: rest => runOps (writeFile t p c) rest

/-- `file.endswith('.h')` on the file name; in terms of the full path. -/
def hasHeaderExt (p : String) : Bool :=
  ['.', 'h'].isSuffixOf p.data

/-! ### Grouping by type name

`types = defaultdict(list)` with `types[name].append(entry)`: an
association list preserving the dict insertion order of the keys and the
append order of the values. -/

def addEntry {ε : Type} (m : List (String × List ε)) (name : String)
    (e : ε) : List (String × List ε) :=
  match m with
  | [] => [(name, [e])]
  | (k, v) :: rest =>
    if k = name then (k, v ++ [e]) :: rest else (k, v) :: addEntry rest name e

def addAll {ε : Type} (m : List (String × List ε))
    (l : List (String × ε)) : List (String × List ε) :=
  l.foldl (fun acc pe => addEntry acc pe.1 pe.2) m

/-- The shared shape of both scan loops (`for root, dirs, files in
os.walk(...)` with the `.h` filter and the per-file `try/except`): walk the
paths in order, skip non-header files, skip files whose read raises, and
feed the matches of each readable header into the grouping map. -/
def scanLoop {ε : Type} (extract : String → String → List (String × ε)) :
    List String → FS → List (String × List ε) →
    (List (String × List ε)) × FS
  | [], s, m => (m, s)
  | p :: ps, s, m =>
    if hasHeaderExt p then
      match fsRead s p with
      | (none, s1) => scanLoop extract ps s1 m
      | (some c, s1) => scanLoop extract ps s1 (addAll m (extract p c))
    else scanLoop extract ps s m

def walkFiles (t : FsTree) : List String := t.map Prod.fst

/-! ### auto_fix_duplicates.py -/

/-- One location record of `find_all_types`:
`{'file': ..., 'match': ..., 'start': ..., 'end': ..., 'kind': 'enum'}`
(`matchText` and `stop` stand for the reserved words `match` and `end`). -/
structure Entry where
  file : String
  matchText : String
  start : Nat
  stop : Nat
  kind : String
deriving DecidableEq, Repr

/-- Per-file match extraction of `find_all_types`.  The source iterates
`enum_pattern.finditer(content)` only: `struct_pattern` is defined a few
lines above but never applied, so no struct entry is ever produced. -/
def extractAuto (p : String) (c : String) : List (String × Entry) :=
  (finditer matchEnumAt c.data).map fun r =>
    (String.mk r.name,
      { file := p, matchText := String.mk r.text, start := r.start,
        stop := r.stop, kind := "enum" })

/-- The `struct_pattern` of auto_fix_duplicates.py applied with
`finditer`, as a standalone scan.  `find_all_types` defines this pattern
but never runs it; this definition exists to state that fact. -/
def structScanA (s : Chars) : List MRec :=
  finditer matchStructAAt s

/-- `find_all_types()`: scan every header file under the root and keep the
names with more than one recorded location. -/
def find_all_types (s : FS) : (List (String × List Entry)) × FS :=
  let (types, s1) := scanLoop extractAuto (walkFiles s.tree) s []
  (types.filter fun kv => decide (1 < kv.2.length), s1)

/-- Lexicographic comparison of char lists by code point, as Python string
comparison. -/
def leChars : Chars → Chars → Bool
  | [], _ => true
  | _ :: _, [] => false
  | a :: as, b :: bs => if a = b then leChars as bs else decide (a.toNat < b.toNat)

def leStr (a b : String) : Bool := leChars a.data b.data

/-- Insert `x` after every element `y` of the (sorted) list with `le y x`;
combined with a left fold this is the stable insertion sort matching
Python `list.sort` / `sorted`. -/
def insertLe {α : Type} (le : α → α → Bool) (x : α) : List α → List α
  | [] => [x]
  | y :: ys => if le y x then y :: insertLe le x ys else x :: y :: ys

def sortLe {α : Type} (le : α → α → Bool) (l : List α) : List α :=
  l.foldl (fun acc x => insertLe le x acc) []

/-- `locations.sort(key=lambda x: x['file'])`. -/
def sortByFile (l : List Entry) : List Entry :=
  sortLe (fun a b => leStr a.file b.file) l

/-- `sorted(duplicates.items())`: the keys are distinct strings, so the
tuple comparison is decided by the type name. -/
def sortByName (l : List (String × List Entry)) : List (String × List Entry) :=
  sortLe (fun a b => leStr a.1 b.1) l

/-- `os.path.relpath(p, start)`, modelled for the only case the scripts
exercise: `p` is a path under `start` produced by the walk, so the result
drops the `start` prefix and its separator; any other path is returned
unchanged. -/
def relpath (p start : String) : String :=
  if (start ++ "/").data.isPrefixOf p.data then
    String.mk (p.data.drop (start.data.length + 1))
  else p

/-- `.replace('\\', '/')` on the canonical relative path. -/
def replaceBackslash (s : String) : String :=
  String.mk (s.data.map fun c => if c = '\\' then '/' else c)

/-- The comment stub written in place of a removed duplicate:
`f"// {type_name} - REMOVED (duplicate)\n// Canonical definition in: {canonical_rel}\n"`. -/
def stubFor (name rel : String) : String :=
  "// " ++ name ++ " - REMOVED (duplicate)\n// Canonical definition in: "
    ++ rel ++ "\n"

def containsStr (s pat : String) : Bool := containsSub pat.data s.data

def replaceFirstStr (s pat new : String) : String :=
  String.mk (replaceFirst s.data pat.data new.data)

/-- Rewrite of one redundant location inside `fix_duplicates()`: re-read
the file (the `try` catches a failing read and moves on), and when the
recorded match text still occurs verbatim, replace its first occurrence by
the comment stub and write the file back, counting the fix. -/
def processLoc (spath canonicalFile name : String) (loc : Entry)
    (acc : FS × Nat) : FS × Nat :=
  let (c, s1) := fsRead acc.1 loc.file
  match c with
  | none => (s1, acc.2)
  | some content =>
    if containsStr content loc.matchText then
      let crel := replaceBackslash (relpath canonicalFile spath)
      let newText := stubFor name crel
      (fsWrite s1 loc.file (replaceFirstStr content loc.matchText newText),
        acc.2 + 1)
    else (s1, acc.2)

/-- One duplicate group inside `fix_duplicates()`: sort the locations by
file path, keep the first as canonical, rewrite all the others. -/
def processGroup (spath name : String) (locs : List Entry)
    (acc : FS × Nat) : FS × Nat :=
  match sortByFile locs with
  | [] => acc
  | canonical :: rest =>
    rest.foldl (fun ac loc => processLoc spath canonical.file name loc ac) acc

/-- `fix_duplicates()` of auto_fix_duplicates.py: scan, then process the
duplicate groups in sorted name order, returning the final filesystem
state and the reported `fixed_count`. -/
def fix_duplicates (spath : String) (s : FS) : FS × Nat :=
  let (dups, s1) := find_all_types s
  (sortByName dups).foldl (fun ac kv => processGroup spath kv.1 kv.2 ac) (s1, 0)

/-! ### fix_duplicates.py -/

/-- One location tuple of `find_duplicates()`:
`(filepath, match.start(), kind)`. -/
structure Entry2 where
  file : String
  start : Nat
  kind : String
deriving DecidableEq, Repr

def fmgChars : Chars := ['F', 'M', 'G']

/-- Per-file match extraction of `find_duplicates()`: all enum matches,
then the struct matches whose captured name passes
`type_name.startswith('FMG')`. -/
def extract2 (p : String) (c : String) : List (String × Entry2) :=
  ((finditer matchEnum2At c.data).map fun r =>
    (String.mk r.name, { file := p, start := r.start, kind := "enum" }))
  ++ (((finditer matchStruct2At c.data).filter fun r =>
        fmgChars.isPrefixOf r.name).map fun r =>
    (String.mk r.name, { file := p, start := r.start, kind := "struct" }))

/-- `find_duplicates()` of fix_duplicates.py. -/
def find_duplicates (s : FS) : (List (String × List Entry2)) × FS :=
  let (types, s1) := scanLoop extract2 (walkFiles s.tree) s []
  (types.filter fun kv => decide (1 < kv.2.length), s1)

/-- `main()` of fix_duplicates.py: build the duplicate mapping and print
it.  The prints only format the returned mapping to stdout; they touch no
file, so the report itself is the returned value. -/
def fd_main (s : FS) : (List (String × List Entry2)) × FS :=
  find_duplicates s

/-! ### Concrete trees and groups used by the claim theorems -/

/-- A duplicated USTRUCT declaration with a GENERATED_BODY marker. -/
def declStructA : String :=
  "USTRUCT(BlueprintType) struct FMGItem \x7b GENERATED_BODY() \x7d;"

/-- Two header files that both hold the same FMG struct declaration. -/
def treeStructDup : FsTree :=
  [("S/u.h", some declStructA), ("S/v.h", some declStructA)]

/-- A minimal UENUM declaration (used by several scenario trees). -/
def declEDup : String := "UENUM() enum class EDup : uint8 \x7bA\x7d;"

/-- Two entries of one group, the second with the smaller file path. -/
def locsC3 : List Entry :=
  [{ file := "S/b.h", matchText := "x", start := 0, stop := 1, kind := "enum" },
   { file := "S/a.h", matchText := "y", start := 0, stop := 1, kind := "enum" }]

def fsC5 : FS := ⟨[("S/b.h", some "hello")], []⟩

def locC5 : Entry :=
  { file := "S/b.h", matchText := "ZZZ", start := 0, stop := 3, kind := "enum" }

/-- A declaration duplicated twice inside one file (C2 counterexample). -/
def declETwo : String := "UENUM() enum class ETwo : uint8 \x7bA\x7d;"

/-- One file holding the same enum declaration twice: its lexicographically
first file is also the canonical one, yet it is rewritten. -/
def treeTwoInOne : FsTree :=
  [("S/c.h", some (declETwo ++ "//x\n" ++ declETwo))]

/-- A two-entry duplicate group across distinct files (C2 witness). -/
def locsC2 : List Entry :=
  [{ file := "S/a.h", matchText := "m", start := 0, stop := 1, kind := "enum" },
   { file := "S/b.h", matchText := "m", start := 0, stop := 1, kind := "enum" }]

def locC2a : Entry :=
  { file := "S/a.h", matchText := "m", start := 0, stop := 1, kind := "enum" }

def locC2b : Entry :=
  { file := "S/b.h", matchText := "m", start := 0, stop := 1, kind := "enum" }

def fsC2 : FS := ⟨[("S/a.h", some "m"), ("S/b.h", some "m")], []⟩

/-- The tree breaking idempotence of `fix_duplicates`: in `S/b.h` the
EDup declaration appears once inside a doc comment that the enum pattern
swallows into the match of `F`, and once as the real trailing
declaration; the recorded match text of the trailing declaration first
occurs inside the comment, so the single-substring replacement hits the
comment copy and leaves the real declaration alive for the next run. -/
def treeDoc : FsTree :=
  [("S/a.h", some declEDup),
   ("S/b.h", some ("/**" ++ declEDup ++
     " */ UENUM() enum class F : uint8 \x7bB\x7d;" ++ declEDup))]

/-- The §8 example declaration of the specification. -/
def declDamage : String :=
  "UENUM(BlueprintType) enum class EDamageType : uint8 \x7b None, Fire, Impact \x7d;"

/-- The §8 example tree of the specification: two files sharing one enum
declaration. -/
def treeExample : FsTree :=
  [("S/p.h", some declDamage), ("S/q.h", some declDamage)]

/-- A duplicated FMG struct for the C6 witness. -/
def declFmgFoo : String := "USTRUCT() struct FMGFoo;"

def treeFmg : FsTree :=
  [("S/x.h", some declFmgFoo), ("S/y.h", some declFmgFoo)]

/-- Same-file duplicate scenario for C9: the same declaration twice in one
file, separated by a line comment. -/
def declENine : String := "UENUM() enum class ENine : uint8 \x7bA\x7d;"

def treeNine : FsTree :=
  [("S/d.h", some (declENine ++ "//x\n" ++ declENine))]

/-- Readable surroundings of the unreadable file in the C7 witness. -/
def treeCsevenA : FsTree := [("S/a.h", some declEDup)]

def treeCsevenB : FsTree := [("S/b.h", some declEDup)]

def MapInv {ε : Type} (P : String → ε → Prop)
    (m : List (String × List ε)) : Prop :=
  ∀ nv ∈ m, ∀ e ∈ nv.2, P nv.1 e

/-! ### Helper theorems -/

theorem breakAtLit_post_lt {pat : Chars} (hpat : pat ≠ []) :
    ∀ {s pre post : Chars}, breakAtLit pat s = some (pre, post) →
      post.length < s.length := by
  intro s
  induction s with
  | nil =>
    intro pre post h
    simp only [breakAtLit, List.isEmpty_iff] at h
    split at h
    · exact absurd (by assumption) hpat
    · exact absurd h (by simp)
  | cons c cs ih =>
    intro pre post h
    simp only [breakAtLit] at h
    split at h
    · have hle : pat.length ≤ (c :: cs).length :=
        (List.isPrefixOf_iff_prefix.mp (by assumption)).length_le
      have hpos : 0 < pat.length := List.length_pos.mpr hpat
      simp only [Option.some.injEq, Prod.mk.injEq] at h
      rw [← h.2, List.length_drop]
      omega
    · revert h
      match hrec : breakAtLit pat cs with
      | some (pre', post') =>
        intro h
        simp only [Option.some.injEq, Prod.mk.injEq] at h
        have := ih hrec
        rw [← h.2]
        simp only [List.length_cons]
        omega
      | none => intro h; exact absurd h (by simp)

/-! ### Order lemmas for the stable sort -/

theorem charToNat_inj {a b : Char} (h : a.toNat = b.toNat) : a = b := by
  apply Char.ext
  apply UInt32.ext
  simpa [Char.toNat, UInt32.toNat] using h

theorem leChars_refl (a : Chars) : leChars a a = true := by
  induction a with
  | nil => rfl
  | cons c cs ih => simp [leChars, ih]

theorem leChars_cons_iff {c d : Char} {cs ds : Chars} :
    leChars (c :: cs) (d :: ds) = true ↔
      (c = d ∧ leChars cs ds = true) ∨ c.toNat < d.toNat := by
  by_cases h : c = d
  · subst h
    simp [leChars]
  · have hne : c.toNat ≠ d.toNat := fun hn => h (charToNat_inj hn)
    simp [leChars, h, hne]

theorem leChars_total (a b : Chars) : leChars a b = true ∨ leChars b a = true := by
  induction a generalizing b with
  | nil => left; rfl
  | cons c cs ih =>
    cases b with
    | nil => right; rfl
    | cons d ds =>
      by_cases hcd : c = d
      · subst hcd
        rcases ih ds with h | h
        · exact Or.inl (leChars_cons_iff.mpr (Or.inl ⟨rfl, h⟩))
        · exact Or.inr (leChars_cons_iff.mpr (Or.inl ⟨rfl, h⟩))
      · have hne : c.toNat ≠ d.toNat := fun h => hcd (charToNat_inj h)
        rcases Nat.lt_or_ge c.toNat d.toNat with hlt | hge
        · exact Or.inl (leChars_cons_iff.mpr (Or.inr hlt))
        · have hdc : d.toNat < c.toNat := lt_of_le_of_ne hge (Ne.symm hne)
          exact Or.inr (leChars_cons_iff.mpr (Or.inr hdc))

theorem leChars_trans {a b c : Chars} (h1 : leChars a b = true)
    (h2 : leChars b c = true) : leChars a c = true := by
  induction a generalizing b c with
  | nil => rfl
  | cons x xs ih =>
    cases b with
    | nil => simp [leChars] at h1
    | cons y ys =>
      cases c with
      | nil => simp [leChars] at h2
      | cons z zs =>
        rcases leChars_cons_iff.mp h1 with ⟨hxy, hxs⟩ | hxy
        · rcases leChars_cons_iff.mp h2 with ⟨hyz, hys⟩ | hyz
          · exact leChars_cons_iff.mpr (Or.inl ⟨hxy.trans hyz, ih hxs hys⟩)
          · exact leChars_cons_iff.mpr (Or.inr (hxy ▸ hyz))
        · rcases leChars_cons_iff.mp h2 with ⟨hyz, hys⟩ | hyz
          · exact leChars_cons_iff.mpr (Or.inr (hyz ▸ hxy))
          · exact leChars_cons_iff.mpr (Or.inr (Nat.lt_trans hxy hyz))

theorem leStr_refl (a : String) : leStr a a = true := leChars_refl a.data

theorem leStr_total (a b : String) : leStr a b = true ∨ leStr b a = true :=
  leChars_total a.data b.data

theorem leStr_trans {a b c : String} (h1 : leStr a b = true)
    (h2 : leStr b c = true) : leStr a c = true :=
  leChars_trans h1 h2

theorem mem_insertLe {α : Type} (le : α → α → Bool) (x y : α) :
    ∀ l : List α, y ∈ insertLe le x l ↔ y = x ∨ y ∈ l := by
  intro l
  induction l with
  | nil => simp [insertLe]
  | cons z zs ih =>
    by_cases h : le z x = true
    · simp only [insertLe, if_pos h, List.mem_cons, ih]
      tauto
    · simp only [insertLe, if_neg h, List.mem_cons]

theorem mem_sortLe {α : Type} (le : α → α → Bool) (l : List α) (y : α) :
    y ∈ sortLe le l ↔ y ∈ l := by
  suffices h : ∀ acc, y ∈ l.foldl (fun acc x => insertLe le x acc) acc ↔
      y ∈ acc ∨ y ∈ l by
    have := h []
    simpa [sortLe] using this
  induction l with
  | nil => intro acc; simp
  | cons z zs ih =>
    intro acc
    simp only [List.foldl_cons, ih, mem_insertLe, List.mem_cons]
    tauto

/-- The head of the output of `insertLe` is a lower bound whenever the head
of the input was one, for a reflexive, total and transitive `le`. -/
theorem insertLe_headLow {α : Type} (le : α → α → Bool)
    (hrefl : ∀ a, le a a = true)
    (htot : ∀ a b, le a b = true ∨ le b a = true)
    (htrans : ∀ {a b c}, le a b = true → le b c = true → le a c = true)
    (x : α) (l : List α)
    (hlow : ∀ c rest, l = c :: rest → ∀ y ∈ l, le c y = true) :
    ∀ c rest, insertLe le x l = c :: rest →
      ∀ y ∈ insertLe le x l, le c y = true := by
  cases l with
  | nil =>
    intro c rest h y hy
    simp only [insertLe] at h hy
    cases h
    simp only [List.mem_singleton] at hy
    subst hy
    exact hrefl _
  | cons z zs =>
    intro c rest h y hy
    simp only [insertLe] at h hy
    by_cases hzx : le z x = true
    · rw [if_pos hzx] at h hy
      cases h
      rcases List.mem_cons.mp hy with hyz | hyin
      · subst hyz; exact hrefl _
      · rcases (mem_insertLe le x y zs).mp hyin with hyx | hyzs
        · subst hyx; exact hzx
        · exact hlow z zs rfl y (List.mem_cons_of_mem _ hyzs)
    · rw [if_neg hzx] at h hy
      cases h
      have hxz : le x z = true := by
        rcases htot x z with h | h
        · exact h
        · exact absurd h hzx
      rcases List.mem_cons.mp hy with hyx | hyin
      · subst hyx; exact hrefl _
      · rcases List.mem_cons.mp hyin with hyz | hyzs
        · subst hyz; exact hxz
        · exact htrans hxz (hlow z zs rfl y (List.mem_cons_of_mem _ hyzs))

/-- The head of the stable sort is a lower bound of all elements. -/
theorem sortLe_headLow {α : Type} (le : α → α → Bool)
    (hrefl : ∀ a, le a a = true)
    (htot : ∀ a b, le a b = true ∨ le b a = true)
    (htrans : ∀ {a b c}, le a b = true → le b c = true → le a c = true)
    (l : List α) :
    ∀ c rest, sortLe le l = c :: rest → ∀ y ∈ sortLe le l, le c y = true := by
  suffices h : ∀ acc, (∀ c rest, acc = c :: rest → ∀ y ∈ acc, le c y = true) →
      ∀ c rest, l.foldl (fun acc x => insertLe le x acc) acc = c :: rest →
        ∀ y ∈ l.foldl (fun acc x => insertLe le x acc) acc, le c y = true by
    exact h [] (by intro c rest hc; cases hc)
  induction l with
  | nil => intro acc hacc; exact hacc
  | cons z zs ih =>
    intro acc hacc
    simp only [List.foldl_cons]
    exact ih (insertLe le z acc) (insertLe_headLow le hrefl htot htrans z acc hacc)

/-! ### Filesystem lemmas -/

theorem readFile_writeFile_ne (t : FsTree) (p q : String) (c : String)
    (h : q ≠ p) : readFile (writeFile t p c) q = readFile t q := by
  have hpq : ¬(p = q) := fun hq => h hq.symm
  induction t with
  | nil => simp [writeFile, readFile, hpq]
  | cons e rest ih =>
    obtain ⟨r, v⟩ := e
    by_cases hr : r = p
    · subst hr
      simp only [writeFile, if_pos rfl, readFile, if_neg hpq]
    · simp only [writeFile, if_neg hr, readFile]
      by_cases hrq : r = q
      · simp [hrq]
      · simp only [if_neg hrq]
        exact ih

theorem readFile_writeFile_eq (t : FsTree) (p : String) (c : String) :
    readFile (writeFile t p c) p = some c := by
  induction t with
  | nil => simp [writeFile, readFile]
  | cons e rest ih =>
    obtain ⟨r, v⟩ := e
    by_cases hr : r = p
    · subst hr
      simp [writeFile, readFile]
    · simp only [writeFile, if_neg hr, readFile, if_neg hr]
      exact ih

theorem readFile_not_mem (t : FsTree) (p : String)
    (h : p ∉ t.map Prod.fst) : readFile t p = none := by
  induction t with
  | nil => rfl
  | cons e rest ih =>
    obtain ⟨r, v⟩ := e
    simp only [List.map_cons, List.mem_cons] at h
    push_neg at h
    simp only [readFile, if_neg (fun hq : r = p => h.1 hq.symm)]
    exact ih h.2

theorem readFile_middle_none (a b : FsTree) (p : String)
    (ha : p ∉ a.map Prod.fst) :
    readFile (a ++ (p, none) :: b) p = none := by
  induction a with
  | nil => simp [readFile]
  | cons e rest ih =>
    obtain ⟨r, v⟩ := e
    simp only [List.map_cons, List.mem_cons] at ha
    push_neg at ha
    simp only [List.cons_append, readFile, if_neg (fun h : r = p => ha.1 h.symm)]
    exact ih ha.2

theorem readFile_middle_same (a b : FsTree) (p q : String)
    (ha : p ∉ a.map Prod.fst) (hb : p ∉ b.map Prod.fst) :
    readFile (a ++ (p, none) :: b) q = readFile (a ++ b) q := by
  induction a with
  | nil =>
    simp only [List.nil_append, readFile]
    by_cases hq : p = q
    · subst hq
      rw [if_pos rfl, readFile_not_mem b p hb]
    · rw [if_neg hq]
  | cons e rest ih =>
    obtain ⟨r, v⟩ := e
    simp only [List.map_cons, List.mem_cons] at ha
    push_neg at ha
    simp only [List.cons_append, readFile]
    by_cases hrq : r = q
    · simp [hrq]
    · simp only [if_neg hrq]
      exact ih ha.2

theorem runOps_reads (ops : List FsOp) (h : ops.all FsOp.isRead = true) :
    ∀ t : FsTree, runOps t ops = t := by
  induction ops with
  | nil => intro t; rfl
  | cons op rest ih =>
    intro t
    cases op with
    | read p =>
      simp only [List.all_cons, Bool.and_eq_true] at h
      exact ih h.2 t
    | write p c => simp [List.all_cons, FsOp.isRead] at h

/-! ### Scan-loop lemmas -/

theorem scanLoop_tree {ε : Type} (extract : String → String → List (String × ε)) :
    ∀ (ps : List String) (s : FS) (m : List (String × List ε)),
      (scanLoop extract ps s m).2.tree = s.tree := by
  intro ps
  induction ps with
  | nil => intro s m; rfl
  | cons p rest ih =>
    intro s m
    simp only [scanLoop]
    by_cases hh : hasHeaderExt p = true
    · rw [if_pos hh]
      cases hr : readFile s.tree p with
      | none => simp only [fsRead, hr]; exact ih _ _
      | some c => simp only [fsRead, hr]; exact ih _ _
    · rw [if_neg hh]
      exact ih _ _

theorem scanLoop_ops {ε : Type} (extract : String → String → List (String × ε)) :
    ∀ (ps : List String) (s : FS) (m : List (String × List ε)),
      ∃ extra : List FsOp, (scanLoop extract ps s m).2.ops = s.ops ++ extra ∧
        extra.all FsOp.isRead = true := by
  intro ps
  induction ps with
  | nil => intro s m; exact ⟨[], by simp [scanLoop]⟩
  | cons p rest ih =>
    intro s m
    simp only [scanLoop]
    by_cases hh : hasHeaderExt p = true
    · rw [if_pos hh]
      cases hr : readFile s.tree p with
      | none =>
        simp only [fsRead, hr]
        obtain ⟨extra, he, ha⟩ := ih ⟨s.tree, s.ops ++ [FsOp.read p]⟩ m
        exact ⟨FsOp.read p :: extra, by simpa [List.append_assoc] using he, by
          simpa [FsOp.isRead] using ha⟩
      | some c =>
        simp only [fsRead, hr]
        obtain ⟨extra, he, ha⟩ :=
          ih ⟨s.tree, s.ops ++ [FsOp.read p]⟩ (addAll m (extract p c))
        exact ⟨FsOp.read p :: extra, by simpa [List.append_assoc] using he, by
          simpa [FsOp.isRead] using ha⟩
    · rw [if_neg hh]
      exact ih s m

/-- The grouping map produced by the scan loop only depends on the tree
through `readFile`. -/
theorem scanLoop_ext {ε : Type} (extract : String → String → List (String × ε)) :
    ∀ (ps : List String) (s1 s2 : FS) (m : List (String × List ε)),
      (∀ q, readFile s1.tree q = readFile s2.tree q) →
      (scanLoop extract ps s1 m).1 = (scanLoop extract ps s2 m).1 := by
  intro ps
  induction ps with
  | nil => intro s1 s2 m _; rfl
  | cons p rest ih =>
    intro s1 s2 m hext
    simp only [scanLoop]
    by_cases hh : hasHeaderExt p = true
    · simp only [if_pos hh]
      cases hr : readFile s1.tree p with
      | none =>
        have hr2 : readFile s2.tree p = none := (hext p) ▸ hr
        simp only [fsRead, hr, hr2]
        exact ih _ _ _ hext
      | some c =>
        have hr2 : readFile s2.tree p = some c := (hext p) ▸ hr
        simp only [fsRead, hr, hr2]
        exact ih _ _ _ hext
    · simp only [if_neg hh]
      exact ih _ _ _ hext

theorem scanLoop_append {ε : Type}
    (extract : String → String → List (String × ε)) :
    ∀ (xs ys : List String) (s : FS) (m : List (String × List ε)),
      scanLoop extract (xs ++ ys) s m =
        scanLoop extract ys (scanLoop extract xs s m).2
          (scanLoop extract xs s m).1 := by
  intro xs
  induction xs with
  | nil => intro ys s m; rfl
  | cons p rest ih =>
    intro ys s m
    simp only [List.cons_append, scanLoop]
    by_cases hh : hasHeaderExt p = true
    · simp only [if_pos hh]
      cases hr : readFile s.tree p with
      | none => simp only [fsRead, hr]; exact ih _ _ _
      | some c => simp only [fsRead, hr]; exact ih _ _ _
    · simp only [if_neg hh]
      exact ih _ _ _

/-- `find_all_types` in terms of its scan loop. -/
theorem find_all_types_eq (s : FS) :
    find_all_types s =
      ((scanLoop extractAuto (walkFiles s.tree) s []).1.filter
        (fun kv => decide (1 < kv.2.length)),
       (scanLoop extractAuto (walkFiles s.tree) s []).2) := by
  cases hsc : scanLoop extractAuto (walkFiles s.tree) s [] with
  | mk types s1 => simp [find_all_types, hsc]

/-- `find_duplicates` in terms of its scan loop. -/
theorem find_duplicates_eq (s : FS) :
    find_duplicates s =
      ((scanLoop extract2 (walkFiles s.tree) s []).1.filter
        (fun kv => decide (1 < kv.2.length)),
       (scanLoop extract2 (walkFiles s.tree) s []).2) := by
  cases hsc : scanLoop extract2 (walkFiles s.tree) s [] with
  | mk types s1 => simp [find_duplicates, hsc]

/-! ### Substring and replacement lemmas -/

theorem isPrefixOf_self_append (pat rest : Chars) :
    pat.isPrefixOf (pat ++ rest) = true :=
  List.isPrefixOf_iff_prefix.mpr (List.prefix_append pat rest)

theorem containsSub_nil_elim {pat : Chars}
    (h : containsSub pat [] = true) : pat = [] := by
  cases pat with
  | nil => rfl
  | cons c cs => simp [containsSub, List.isPrefixOf] at h

theorem containsSub_append_left {pat x : Chars} (h : containsSub pat x = true)
    (y : Chars) : containsSub pat (x ++ y) = true := by
  induction x with
  | nil =>
    have hp : pat = [] := containsSub_nil_elim h
    subst hp
    cases y with
    | nil => rfl
    | cons d ds => simp [containsSub, List.isPrefixOf]
  | cons c cs ih =>
    simp only [containsSub, Bool.or_eq_true] at h ⊢
    rcases h with h | h
    · left
      have := List.isPrefixOf_iff_prefix.mp h
      exact List.isPrefixOf_iff_prefix.mpr (this.trans (List.prefix_append _ _))
    · right; exact ih h

theorem containsSub_append_right (pat : Chars) {y : Chars} (x : Chars)
    (h : containsSub pat y = true) : containsSub pat (x ++ y) = true := by
  induction x with
  | nil => exact h
  | cons c cs ih =>
    simp only [List.cons_append, containsSub, Bool.or_eq_true]
    right; exact ih

theorem containsSub_self_append (pat rest : Chars) :
    containsSub pat (pat ++ rest) = true := by
  cases pat with
  | nil =>
    cases rest with
    | nil => rfl
    | cons d ds => simp [containsSub, List.isPrefixOf]
  | cons c cs =>
    simp only [List.cons_append, containsSub, Bool.or_eq_true]
    left
    exact isPrefixOf_self_append (c :: cs) rest

/-- `replaceFirst` rewrites exactly the least-index occurrence of the
pattern: there is an index `i` carrying an occurrence, no occurrence lies
before it, and the result splits the string there. -/
theorem replaceFirst_least (s pat new : Chars)
    (h : containsSub pat s = true) :
    ∃ i, isMatchAt pat s i = true ∧
      (∀ j, j < i → isMatchAt pat s j = false) ∧
      replaceFirst s pat new = s.take i ++ new ++ s.drop (i + pat.length) := by
  induction s with
  | nil =>
    have hp : pat = [] := containsSub_nil_elim h
    subst hp
    refine ⟨0, ?_, ?_, ?_⟩
    · rfl
    · intro j hj; omega
    · simp [replaceFirst]
  | cons c cs ih =>
    by_cases hpre : pat.isPrefixOf (c :: cs) = true
    · refine ⟨0, ?_, ?_, ?_⟩
      · simp only [isMatchAt, List.drop_zero]; exact hpre
      · intro j hj; omega
      · simp [replaceFirst, hpre]
    · have hnp : pat.isPrefixOf (c :: cs) = false := by
        rwa [Bool.not_eq_true] at hpre
      have htail : containsSub pat cs = true := by
        simp only [containsSub, Bool.or_eq_true] at h
        rcases h with h | h
        · exact absurd h hpre
        · exact h
      obtain ⟨i, hi, hlow, heq⟩ := ih htail
      refine ⟨i + 1, ?_, ?_, ?_⟩
      · simp only [isMatchAt, List.drop_succ_cons]
        exact hi
      · intro j hj
        cases j with
        | zero => simp only [isMatchAt, List.drop_zero]; exact hnp
        | succ j' =>
          have hj' : j' < i := by omega
          simp only [isMatchAt, List.drop_succ_cons]
          exact hlow j' hj'
      · have hstep : replaceFirst (c :: cs) pat new =
            c :: replaceFirst cs pat new := by
          simp [replaceFirst, hnp]
        rw [hstep, heq]
        simp [List.take_succ_cons, List.drop_succ_cons, Nat.add_right_comm]
    
/-! ### Frame lemmas for the fix step -/

theorem processLoc_tree_ne (spath cf name : String) (loc : Entry)
    (acc : FS × Nat) (q : String) (hq : q ≠ loc.file) :
    readFile (processLoc spath cf name loc acc).1.tree q =
      readFile acc.1.tree q := by
  simp only [processLoc, fsRead]
  cases readFile acc.1.tree loc.file with
  | none => rfl
  | some content =>
    by_cases hc : containsStr content loc.matchText = true
    · simp only [hc, if_true, fsWrite]
      exact readFile_writeFile_ne _ _ _ _ hq
    · simp only [hc]
      rfl

theorem processFold_tree_notin (spath cf name : String) (ls : List Entry) :
    ∀ (acc : FS × Nat) (q : String), (∀ l ∈ ls, l.file ≠ q) →
      readFile ((ls.foldl (fun ac loc => processLoc spath cf name loc ac)
        acc).1.tree) q = readFile acc.1.tree q := by
  induction ls with
  | nil => intro acc q _; rfl
  | cons l ls ih =>
    intro acc q hq
    simp only [List.foldl_cons]
    have hl : l.file ≠ q := hq l (List.mem_cons_self l ls)
    rw [ih _ q (fun x hx => hq x (List.mem_cons_of_mem l hx))]
    exact processLoc_tree_ne spath cf name l acc q (fun h => hl h.symm)

theorem processGroup_tree_notin (spath name : String) (locs : List Entry)
    (canonical : Entry) (rest : List Entry)
    (hsort : sortByFile locs = canonical :: rest)
    (acc : FS × Nat) (q : String) (hq : ∀ l ∈ rest, l.file ≠ q) :
    readFile (processGroup spath name locs acc).1.tree q =
      readFile acc.1.tree q := by
  simp only [processGroup, hsort]
  exact processFold_tree_notin spath canonical.file name rest acc q hq

/-! ### Invariant of the grouping map (for the FMG property of C6) -/

theorem addEntry_inv {ε : Type} {P : String → ε → Prop}
    {m : List (String × List ε)} {name : String} {e : ε}
    (hm : MapInv P m) (he : P name e) : MapInv P (addEntry m name e) := by
  induction m with
  | nil =>
    intro nv hnv x hx
    simp only [addEntry, List.mem_singleton] at hnv
    subst hnv
    simp only [List.mem_singleton] at hx
    subst hx
    exact he
  | cons kv rest ih =>
    obtain ⟨k, v⟩ := kv
    by_cases hk : k = name
    · subst hk
      intro nv hnv x hx
      simp only [addEntry, eq_self_iff_true, if_true, List.mem_cons] at hnv
      rcases hnv with hnv | hnv
      · subst hnv
        simp only [List.mem_append, List.mem_singleton] at hx
        rcases hx with hx | hx
        · exact hm (k, v) (List.mem_cons_self _ _) x hx
        · subst hx; exact he
      · exact hm nv (List.mem_cons_of_mem _ hnv) x hx
    · intro nv hnv x hx
      simp only [addEntry, if_neg hk, List.mem_cons] at hnv
      rcases hnv with hnv | hnv
      · subst hnv
        exact hm (k, v) (List.mem_cons_self _ _) x hx
      · exact ih (fun nv' hnv' => hm nv' (List.mem_cons_of_mem _ hnv')) nv hnv x hx

theorem addAll_inv {ε : Type} {P : String → ε → Prop}
    {m : List (String × List ε)} {l : List (String × ε)}
    (hm : MapInv P m) (hl : ∀ pe ∈ l, P pe.1 pe.2) :
    MapInv P (addAll m l) := by
  induction l generalizing m with
  | nil => exact hm
  | cons pe rest ih =>
    simp only [addAll, List.foldl_cons]
    exact ih (addEntry_inv hm (hl pe (List.mem_cons_self _ _)))
      (fun x hx => hl x (List.mem_cons_of_mem _ hx))

theorem scanLoop_inv {ε : Type} {P : String → ε → Prop}
    (extract : String → String → List (String × ε))
    (hext : ∀ p c pe, pe ∈ extract p c → P pe.1 pe.2) :
    ∀ (ps : List String) (s : FS) (m : List (String × List ε)),
      MapInv P m → MapInv P (scanLoop extract ps s m).1 := by
  intro ps
  induction ps with
  | nil => intro s m hm; exact hm
  | cons p rest ih =>
    intro s m hm
    simp only [scanLoop]
    by_cases hh : hasHeaderExt p = true
    · simp only [if_pos hh]
      cases hr : readFile s.tree p with
      | none => simp only [fsRead, hr]; exact ih _ _ hm
      | some c =>
        simp only [fsRead, hr]
        exact ih _ _ (addAll_inv hm (fun pe hpe => hext p c pe hpe))
    · simp only [if_neg hh]
      exact ih _ _ hm

theorem extract2_struct_fmg (p c : String) (pe : String × Entry2)
    (hpe : pe ∈ extract2 p c) (hk : pe.2.kind = "struct") :
    fmgChars.isPrefixOf pe.1.data = true := by
  simp only [extract2, List.mem_append, List.mem_map, List.mem_filter] at hpe
  rcases hpe with ⟨r, _, hr⟩ | ⟨r, ⟨_, hfmg⟩, hr⟩
  · exfalso
    rw [← hr] at hk
    simp at hk
  · rw [← hr]
    simpa using hfmg

/-! ### Claim theorems -/

/-- Claim C1: the claim says `find_all_types` applies both the enum
pattern and the struct pattern and records every match of either, so that
duplicated struct declarations appear in the mapping.  The code of
auto_fix_duplicates.py never applies its `struct_pattern`: on a tree of
two header files sharing one FMG struct declaration, `find_all_types`
returns the empty mapping even though the struct pattern itself matches
the declaration, and even though `find_duplicates` of fix_duplicates.py
does report the same tree as duplicated. -/
theorem c1_struct_scan_dropped :
    (find_all_types ⟨treeStructDup, []⟩).1 = [] ∧
    structScanA declStructA.data ≠ [] ∧
    (find_duplicates ⟨treeStructDup, []⟩).1 ≠ [] :=
  ⟨by decide, by decide, by decide⟩

/-- Claim C3: the canonical entry of a duplicate group is the head of the
stable sort by file path used by `fix_duplicates`; it belongs to the group
and its file path is lexicographically least among the recorded file
paths (the scan and the sort are pure functions, so two scans of the same
tree make the same choice). -/
theorem c3_canonical_least (locs : List Entry) (h : locs ≠ []) :
    ∃ canonical rest, sortByFile locs = canonical :: rest ∧
      canonical ∈ locs ∧
      ∀ l ∈ locs, leStr canonical.file l.file = true := by
  obtain ⟨x, xs, hl⟩ := List.exists_cons_of_ne_nil h
  have hx : x ∈ sortByFile locs := by
    rw [sortByFile, mem_sortLe, hl]
    exact List.mem_cons_self x xs
  cases hs : sortByFile locs with
  | nil => rw [hs] at hx; exact absurd hx (List.not_mem_nil x)
  | cons c rest =>
    refine ⟨c, rest, rfl, ?_, ?_⟩
    · have hc : c ∈ sortByFile locs := hs ▸ List.mem_cons_self c rest
      rw [sortByFile, mem_sortLe] at hc
      exact hc
    · intro l hmem0
      have hmem : l ∈ sortLe (fun a b => leStr a.file b.file) locs := by
        rw [mem_sortLe]
        exact hmem0
      have hs' : sortLe (fun a b => leStr a.file b.file) locs = c :: rest := hs
      exact sortLe_headLow (fun a b => leStr a.file b.file)
        (fun a => leStr_refl a.file)
        (fun a b => leStr_total a.file b.file)
        (fun {a b d} h1 h2 => by exact leStr_trans h1 h2) locs c rest hs' l hmem

theorem c3_canonical_least_w :
    locsC3 ≠ [] ∧
    ∃ canonical rest, sortByFile locsC3 = canonical :: rest ∧
      canonical ∈ locsC3 ∧
      ∀ l ∈ locsC3, leStr canonical.file l.file = true :=
  ⟨by decide, c3_canonical_least locsC3 (by decide)⟩

/-- Claim C5: a scheduled rewrite whose recorded match text no longer
occurs verbatim in the current content of its file leaves the tree
untouched and the fixed count unchanged (the embedding is total, so no
error is raised either). -/
theorem c5_missing_text_skipped (spath cf name : String) (loc : Entry)
    (acc : FS × Nat) (content : String)
    (h1 : readFile acc.1.tree loc.file = some content)
    (h2 : containsStr content loc.matchText = false) :
    (processLoc spath cf name loc acc).1.tree = acc.1.tree ∧
    (processLoc spath cf name loc acc).2 = acc.2 := by
  simp only [processLoc, fsRead, h1]
  simp [h2]

theorem c5_missing_text_skipped_w :
    readFile fsC5.tree locC5.file = some "hello" ∧
    containsStr "hello" locC5.matchText = false ∧
    ((processLoc "S" "S/a.h" "E" locC5 (fsC5, 0)).1.tree = fsC5.tree ∧
      (processLoc "S" "S/a.h" "E" locC5 (fsC5, 0)).2 = 0) :=
  ⟨by decide, by decide,
    c5_missing_text_skipped "S" "S/a.h" "E" locC5 (fsC5, 0) "hello"
      (by decide) (by decide)⟩

/-- Claim C2 counterexample: the claim promises that the canonical
(lexicographically first) file of every duplicate group is left
byte-for-byte unchanged.  When the two entries of a group live in the same
file, that file is both canonical and redundant, and processing the group
rewrites it: on `treeTwoInOne` the single file changes. -/
theorem c2_counterexample :
    readFile (fix_duplicates "S" ⟨treeTwoInOne, []⟩).1.tree "S/c.h" ≠
      readFile treeTwoInOne "S/c.h" := by decide

/-- Claim C2 as amended: for a duplicate group whose non-canonical entries
all live in files other than the canonical one, processing the group
leaves the canonical file unchanged; each written stub contains the
literal "REMOVED (duplicate)" and the canonical relative path; and a
non-canonical entry whose match text occurs in the current content of its
file has that content rewritten by replacing the first occurrence of the
match text with the stub. -/
theorem c2_amended (spath name : String) (locs : List Entry)
    (canonical : Entry) (rest : List Entry) (acc : FS × Nat)
    (hsort : sortByFile locs = canonical :: rest)
    (hdist : ∀ l ∈ rest, l.file ≠ canonical.file) :
    readFile (processGroup spath name locs acc).1.tree canonical.file =
      readFile acc.1.tree canonical.file ∧
    (∀ rel : String,
      containsStr (stubFor name rel) "REMOVED (duplicate)" = true ∧
      containsStr (stubFor name rel) rel = true) ∧
    ∀ (loc : Entry) (acc2 : FS × Nat) (content : String),
      readFile acc2.1.tree loc.file = some content →
      containsStr content loc.matchText = true →
      readFile (processLoc spath canonical.file name loc acc2).1.tree
          loc.file =
        some (replaceFirstStr content loc.matchText
          (stubFor name (replaceBackslash (relpath canonical.file spath)))) := by
  refine ⟨?_, ?_, ?_⟩
  · exact processGroup_tree_notin spath name locs canonical rest hsort acc
      canonical.file hdist
  · intro rel
    have hdata : (stubFor name rel).data =
        ("// ").data ++ (name.data ++
          ((" - REMOVED (duplicate)\n// Canonical definition in: ").data ++
            (rel.data ++ ("\n").data))) := by
      simp [stubFor, String.data_append, List.append_assoc]
    constructor
    · show containsSub ("REMOVED (duplicate)").data (stubFor name rel).data
        = true
      rw [hdata]
      apply containsSub_append_right
      apply containsSub_append_right
      apply containsSub_append_left
      decide
    · show containsSub rel.data (stubFor name rel).data = true
      rw [hdata]
      apply containsSub_append_right
      apply containsSub_append_right
      apply containsSub_append_right
      exact containsSub_self_append rel.data ("\n").data
  · intro loc acc2 content h1 h2
    simp only [processLoc, fsRead, h1, h2, if_true, fsWrite]
    exact readFile_writeFile_eq _ _ _

theorem c2_amended_w :
    sortByFile locsC2 = locC2a :: [locC2b] ∧
    (∀ l ∈ [locC2b], l.file ≠ locC2a.file) ∧
    (readFile (processGroup "S" "ETwo" locsC2 (fsC2, 0)).1.tree locC2a.file =
        readFile (fsC2, 0).1.tree locC2a.file ∧
      (∀ rel : String,
        containsStr (stubFor "ETwo" rel) "REMOVED (duplicate)" = true ∧
        containsStr (stubFor "ETwo" rel) rel = true) ∧
      ∀ (loc : Entry) (acc2 : FS × Nat) (content : String),
        readFile acc2.1.tree loc.file = some content →
        containsStr content loc.matchText = true →
        readFile (processLoc "S" locC2a.file "ETwo" loc acc2).1.tree
            loc.file =
          some (replaceFirstStr content loc.matchText
            (stubFor "ETwo" (replaceBackslash (relpath locC2a.file "S"))))) :=
  ⟨by decide, by decide,
    c2_amended "S" "ETwo" locsC2 locC2a [locC2b] (fsC2, 0)
      (by decide) (by decide)⟩

/-- Claim C4 counterexample: running `fix_duplicates` twice on `treeDoc`
is not idempotent.  The first run schedules the trailing EDup declaration
of `S/b.h` for removal, but the single-substring replacement rewrites the
identical copy sitting inside the doc comment at the head of the file, so
the real declaration survives; the second run therefore still finds EDup
duplicated and rewrites `S/b.h` again. -/
theorem c4_counterexample :
    (fix_duplicates "S"
        ⟨(fix_duplicates "S" ⟨treeDoc, []⟩).1.tree, []⟩).1.tree ≠
      (fix_duplicates "S" ⟨treeDoc, []⟩).1.tree := by decide

set_option maxRecDepth 4000 in
/-- Claim C4 as amended: the idempotence promise holds when each rewrite
of the first run replaces the matched declaration occurrence itself — in
particular on the §8 example tree of the specification (two files sharing
one enum declaration): after one run the scan finds no duplicate group,
and the second run changes no file and reports zero fixes. -/
theorem c4_amended :
    (find_all_types
      ⟨(fix_duplicates "S" ⟨treeExample, []⟩).1.tree, []⟩).1 = [] ∧
    (fix_duplicates "S"
        ⟨(fix_duplicates "S" ⟨treeExample, []⟩).1.tree, []⟩).1.tree =
      (fix_duplicates "S" ⟨treeExample, []⟩).1.tree ∧
    (fix_duplicates "S"
        ⟨(fix_duplicates "S" ⟨treeExample, []⟩).1.tree, []⟩).2 = 0 :=
  ⟨by decide, by decide, by decide⟩

/-- Claim C6: an entry recorded by the struct pattern of
`find_duplicates` always carries a type name with the FMG project prefix,
because the scan appends a struct match only after the
`startswith('FMG')` test; a duplicated struct whose name lacks the prefix
therefore never appears in the duplicate mapping. -/
theorem c6_struct_requires_fmg (t : FsTree) (name : String)
    (entries : List Entry2) (e : Entry2)
    (hmem : (name, entries) ∈ (find_duplicates ⟨t, []⟩).1)
    (he : e ∈ entries) (hk : e.kind = "struct") :
    fmgChars.isPrefixOf name.data = true := by
  have hinv : MapInv
      (fun n ent => ent.kind = "struct" →
        fmgChars.isPrefixOf n.data = true)
      (scanLoop extract2 (walkFiles t) ⟨t, []⟩ []).1 :=
    @scanLoop_inv Entry2
      (fun n ent => ent.kind = "struct" →
        fmgChars.isPrefixOf n.data = true)
      extract2
      (fun p c pe hpe hk' => extract2_struct_fmg p c pe hpe hk')
      (walkFiles t) ⟨t, []⟩ []
      (fun nv hnv => absurd hnv (List.not_mem_nil nv))
  have hmem' : (name, entries) ∈
      (scanLoop extract2 (walkFiles t) ⟨t, []⟩ []).1 := by
    rw [find_duplicates_eq] at hmem
    exact (List.mem_filter.mp hmem).1
  exact hinv (name, entries) hmem' e he hk

theorem c6_struct_requires_fmg_w :
    ("FMGFoo",
      [({ file := "S/x.h", start := 0, kind := "struct" } : Entry2),
       { file := "S/y.h", start := 0, kind := "struct" }]) ∈
        (find_duplicates ⟨treeFmg, []⟩).1 ∧
    ({ file := "S/x.h", start := 0, kind := "struct" } : Entry2) ∈
      [({ file := "S/x.h", start := 0, kind := "struct" } : Entry2),
       { file := "S/y.h", start := 0, kind := "struct" }] ∧
    ({ file := "S/x.h", start := 0, kind := "struct" } : Entry2).kind
      = "struct" ∧
    fmgChars.isPrefixOf ("FMGFoo").data = true :=
  ⟨by decide, by decide, by decide,
    c6_struct_requires_fmg treeFmg "FMGFoo"
      [{ file := "S/x.h", start := 0, kind := "struct" },
       { file := "S/y.h", start := 0, kind := "struct" }]
      { file := "S/x.h", start := 0, kind := "struct" }
      (by decide) (by decide) (by decide)⟩

/-- Claim C7: a file whose read raises is skipped on its own — the scan of
a tree containing an unreadable file returns exactly the duplicate mapping
of the tree without it, keeping every match collected from the other
files — and the fix entry point is a total function that always returns
its summary count. -/
theorem c7_unreadable_file_skipped (spath : String) (a b : FsTree)
    (p : String) (hp : p ∉ (a ++ b).map Prod.fst) :
    (find_all_types ⟨a ++ (p, none) :: b, []⟩).1 =
      (find_all_types ⟨a ++ b, []⟩).1 ∧
    ∃ n : Nat, (fix_duplicates spath ⟨a ++ (p, none) :: b, []⟩).2 = n := by
  have hpa : p ∉ a.map Prod.fst := by
    simp only [List.map_append, List.mem_append] at hp
    exact fun hmem => hp (Or.inl hmem)
  have hpb : p ∉ b.map Prod.fst := by
    simp only [List.map_append, List.mem_append] at hp
    exact fun hmem => hp (Or.inr hmem)
  refine ⟨?_, ⟨_, rfl⟩⟩
  have hmap : ∀ q, readFile (a ++ (p, none) :: b) q = readFile (a ++ b) q :=
    fun q => readFile_middle_same a b p q hpa hpb
  rw [find_all_types_eq, find_all_types_eq]
  simp only
  have hscan : (scanLoop extractAuto (walkFiles (a ++ (p, none) :: b))
        ⟨a ++ (p, none) :: b, []⟩ []).1 =
      (scanLoop extractAuto (walkFiles (a ++ b))
        ⟨a ++ b, []⟩ []).1 := by
    have hwalkL : walkFiles (a ++ (p, none) :: b) =
        a.map Prod.fst ++ p :: b.map Prod.fst := by
      simp [walkFiles]
    have hwalkR : walkFiles (a ++ b) =
        a.map Prod.fst ++ b.map Prod.fst := by
      simp [walkFiles]
    rw [hwalkL, hwalkR, scanLoop_append, scanLoop_append]
    have hm1 : (scanLoop extractAuto (a.map Prod.fst)
          (⟨a ++ (p, none) :: b, []⟩ : FS) []).1 =
        (scanLoop extractAuto (a.map Prod.fst) (⟨a ++ b, []⟩ : FS) []).1 :=
      scanLoop_ext extractAuto (a.map Prod.fst) _ _ [] hmap
    have htreeL : (scanLoop extractAuto (a.map Prod.fst)
          (⟨a ++ (p, none) :: b, []⟩ : FS) []).2.tree =
        a ++ (p, none) :: b :=
      scanLoop_tree extractAuto (a.map Prod.fst) _ []
    have htreeR : (scanLoop extractAuto (a.map Prod.fst)
          (⟨a ++ b, []⟩ : FS) []).2.tree = a ++ b :=
      scanLoop_tree extractAuto (a.map Prod.fst) _ []
    have hextmid : ∀ q,
        readFile (scanLoop extractAuto (a.map Prod.fst)
          (⟨a ++ (p, none) :: b, []⟩ : FS) []).2.tree q =
        readFile (scanLoop extractAuto (a.map Prod.fst)
          (⟨a ++ b, []⟩ : FS) []).2.tree q := by
      intro q
      rw [htreeL, htreeR]
      exact hmap q
    simp only [scanLoop]
    by_cases hh : hasHeaderExt p = true
    · simp only [if_pos hh]
      have hrp : readFile (scanLoop extractAuto (a.map Prod.fst)
            (⟨a ++ (p, none) :: b, []⟩ : FS) []).2.tree p = none := by
        rw [htreeL]
        exact readFile_middle_none a b p hpa
      simp only [fsRead, hrp]
      rw [hm1]
      apply scanLoop_ext
      intro q
      simp only
      rw [htreeL, htreeR]
      exact hmap q
    · simp only [if_neg hh]
      rw [hm1]
      exact scanLoop_ext extractAuto (b.map Prod.fst) _ _ _ hextmid
  rw [hscan]

theorem c7_unreadable_file_skipped_w :
    ("S/broken.h" ∉ (treeCsevenA ++ treeCsevenB).map Prod.fst) ∧
    ((find_all_types
        ⟨treeCsevenA ++ ("S/broken.h", none) :: treeCsevenB, []⟩).1 =
      (find_all_types ⟨treeCsevenA ++ treeCsevenB, []⟩).1 ∧
     ∃ n : Nat, (fix_duplicates "S"
        ⟨treeCsevenA ++ ("S/broken.h", none) :: treeCsevenB, []⟩).2 = n) :=
  ⟨by decide,
    c7_unreadable_file_skipped "S" treeCsevenA treeCsevenB "S/broken.h"
      (by decide)⟩

/-- Claim C8: `find_all_types` performs no write: its scan leaves the tree
exactly as given, every file operation in its trace is a read, and
replaying the trace against any tree changes nothing. -/
theorem c8_scan_writes_nothing (t : FsTree) :
    (find_all_types ⟨t, []⟩).2.tree = t ∧
    (find_all_types ⟨t, []⟩).2.ops.all FsOp.isRead = true ∧
    ∀ u : FsTree, runOps u (find_all_types ⟨t, []⟩).2.ops = u := by
  have h2 : (find_all_types ⟨t, []⟩).2 =
      (scanLoop extractAuto (walkFiles t) ⟨t, []⟩ []).2 := by
    rw [find_all_types_eq]
  obtain ⟨extra, he, ha⟩ :=
    scanLoop_ops extractAuto (walkFiles t) ⟨t, []⟩ []
  have hops : (find_all_types ⟨t, []⟩).2.ops = extra := by
    rw [h2, he]
    rfl
  refine ⟨?_, ?_, ?_⟩
  · rw [h2]
    exact scanLoop_tree extractAuto (walkFiles t) ⟨t, []⟩ []
  · rw [hops]
    exact ha
  · intro u
    rw [hops]
    exact runOps_reads extra ha u

/-- Claim C9: `fix_duplicates` locates the text to rewrite by a single
first-occurrence substring replacement, not by the recorded offsets:
`replaceFirst` rewrites the least-index occurrence of the pattern, and on
a file holding the canonical declaration and an identical redundant one,
the occurrence replaced is the first in the file — the canonical
position — while the later copy survives. -/
theorem c9_first_occurrence_replaced (s pat new : Chars)
    (h : containsSub pat s = true) :
    (∃ i, isMatchAt pat s i = true ∧
      (∀ j, j < i → isMatchAt pat s j = false) ∧
      replaceFirst s pat new = s.take i ++ new ++ s.drop (i + pat.length)) ∧
    readFile (fix_duplicates "S" ⟨treeNine, []⟩).1.tree "S/d.h" =
      some (stubFor "ENine" "d.h" ++ "//x\n" ++ declENine) :=
  ⟨replaceFirst_least s pat new h, by decide⟩

theorem c9_first_occurrence_replaced_w :
    containsSub ("ab").data ("xabab").data = true ∧
    ((∃ i, isMatchAt ("ab").data ("xabab").data i = true ∧
      (∀ j, j < i → isMatchAt ("ab").data ("xabab").data j = false) ∧
      replaceFirst ("xabab").data ("ab").data ("Z").data =
        ("xabab").data.take i ++ ("Z").data ++
          ("xabab").data.drop (i + ("ab").data.length)) ∧
    readFile (fix_duplicates "S" ⟨treeNine, []⟩).1.tree "S/d.h" =
      some (stubFor "ENine" "d.h" ++ "//x\n" ++ declENine)) :=
  ⟨by decide,
    c9_first_occurrence_replaced ("xabab").data ("ab").data ("Z").data
      (by decide)⟩

/-- Claim C10: the report entry point of fix_duplicates.py only reads: it
returns the duplicate mapping for printing, leaves the tree exactly as
given, and its operation trace holds no write, so replaying it against
any tree changes nothing. -/
theorem c10_report_writes_nothing (t : FsTree) :
    (fd_main ⟨t, []⟩).2.tree = t ∧
    (fd_main ⟨t, []⟩).2.ops.all FsOp.isRead = true ∧
    ∀ u : FsTree, runOps u (fd_main ⟨t, []⟩).2.ops = u := by
  have h2 : (fd_main ⟨t, []⟩).2 =
      (scanLoop extract2 (walkFiles t) ⟨t, []⟩ []).2 := by
    show (find_duplicates ⟨t, []⟩).2 = _
    rw [find_duplicates_eq]
  obtain ⟨extra, he, ha⟩ :=
    scanLoop_ops extract2 (walkFiles t) ⟨t, []⟩ []
  have hops : (fd_main ⟨t, []⟩).2.ops = extra := by
    rw [h2, he]
    rfl
  refine ⟨?_, ?_, ?_⟩
  · rw [h2]
    exact scanLoop_tree extract2 (walkFiles t) ⟨t, []⟩ []
  · rw [hops]
    exact ha
  · intro u
    rw [hops]
    exact runOps_reads extra ha u
